import Mathlib

namespace WebScraper

/-!
Verification of the contact-scraper pipeline in `novisitedlink.py`.

The development shallowly embeds the pure core of the program:
string helpers modelling Python's `in` and `startswith`, the link filter of
`get_links`, the email/phone post-processing of `scrape_page`, the Indian
phone regular expression `PHONE_REGEX`, the record expansion and
visited-set updates of `crawl_and_scrape`, the `deduplicate` pass, and the
batch selection performed in `main`.  Network fetches, HTML parsing and the
spaCy entity recognizer are modelled as oracles (function parameters), since
the claims under study only concern the pure logic applied to their output.
-/

/-- Boolean test that `needle` occurs as a contiguous run inside `hay`,
modelling Python's substring operator `needle in hay` on lists of
characters. -/
def containsSub (needle hay : List Char) : Bool :=
  hay.tails.any (fun t => List.isPrefixOf needle t)

/-- Python's `needle in hay` on strings (substring containment). -/
def inStr (needle hay : String) : Bool :=
  containsSub needle.data hay.data

/-- Python's `s.startswith(p)` (exact, case-sensitive prefix test). -/
def startswith (p s : String) : Bool :=
  List.isPrefixOf p.data s.data

/-- Scan for the first `://` and return the characters after it, modelling
how `urllib.parse.urlparse` locates the authority of an absolute URL. -/
def dropToAuthority : List Char → Option (List Char)
  | ':' :: '/' :: '/' :: rest => some rest
  | _ :: rest => dropToAuthority rest
  | [] => none

/-- Host (`netloc`) component of an absolute URL: the characters between
`://` and the first `/`, `?` or `#`, modelling `urlparse(url).netloc` for
the absolute `http(s)` URLs the scraper handles. -/
def netloc (url : String) : String :=
  match dropToAuthority url.data with
  | some rest => String.mk (rest.takeWhile (fun c => !(c == '/' || c == '?' || c == '#')))
  | none => ""

/-! ### ContactRecord and the deduplicator (`deduplicate`, lines 130-138) -/

/-- Record shape produced by `crawl_and_scrape` (the Python dict with keys
Person Name, Designation, Company, Email(s), Phone(s), Source URL); `none`
models Python's `None`. -/
structure ContactRecord where
  personName : Option String
  designation : Option String
  company : Option String
  emails : Option String
  phones : Option String
  sourceUrl : String
deriving DecidableEq, Repr

/-- Deduplication signature `key = (item['Email(s)'], item['Phone(s)'])`. -/
def sig (r : ContactRecord) : Option String × Option String :=
  (r.emails, r.phones)

/-- Loop of `deduplicate`: `seen` is the set of signatures already kept. -/
def dedupAux (seen : List (Option String × Option String)) :
    List ContactRecord → List ContactRecord
  | [] => []
  | r :: rest =>
    if sig r ∈ seen then dedupAux seen rest
    else r :: dedupAux (sig r :: seen) rest

/-- The `deduplicate` function of the source: keep the first record seen for
each `(Email(s), Phone(s))` signature, in input order. -/
def deduplicate (results : List ContactRecord) : List ContactRecord :=
  dedupAux [] results

/-! ### Contact extraction (`scrape_page`, lines 80-98) -/

/-- Email post-filter of line 86: `email.startswith(('noreply', 'no-reply',
'donotreply'))`. -/
def isFilteredEmail (e : String) : Bool :=
  startswith "noreply" e || startswith "no-reply" e || startswith "donotreply" e

/-- Email post-processing of lines 85-86: `list(set(...))` modelled as
`List.dedup` of the raw regex matches, followed by the start-prefix
filter. -/
def process_emails (raw : List String) : List String :=
  (raw.dedup).filter (fun e => !isFilteredEmail e)

/-- Phone post-processing of line 87: `list(set(re.findall(PHONE_REGEX,
text)))`. -/
def process_phones (raw : List String) : List String :=
  raw.dedup

/-- Raw material a successful fetch of one page yields before the pure
post-processing: the raw email and phone regex matches found in the page
text and the entities the recognizer returned. -/
structure RawPage where
  rawEmails : List String
  rawPhones : List String
  names : List String
  orgs : List String
deriving DecidableEq, Repr

/-- Result record of `scrape_page` (the returned dict, lines 89-95). -/
structure PageRecord where
  url : String
  names : List String
  orgs : List String
  emails : List String
  phones : List String
deriving DecidableEq, Repr

/-- The `scrape_page` function: `fetch` is the oracle for the fallible
fetch/parse/regex/NER part (`none` models the caught exception of lines
96-98); on success the pure post-processing of lines 85-87 is applied. -/
def scrape_page (fetch : String → Option RawPage) (url : String) :
    Option PageRecord :=
  match fetch url with
  | none => none
  | some p => some ⟨url, p.names, p.orgs,
      process_emails p.rawEmails, process_phones p.rawPhones⟩

/-! ### Record expansion (`crawl_and_scrape`, lines 115-125) -/

/-- Python's `", ".join(l)`. -/
def commaJoin (l : List String) : String := String.intercalate ", " l

/-- Python's `", ".join(l) if l else None` (lines 122-123). -/
def joinOpt (l : List String) : Option String :=
  if l.isEmpty then none else some (commaJoin l)

/-- Expansion of one successful PageRecord into ContactRecords, lines
115-125: one record per index of `range(max(len(names), 1))`. -/
def expandRecords (data : PageRecord) : List ContactRecord :=
  (List.range (max data.names.length 1)).map (fun i =>
    { personName := data.names.get? i
      designation := none
      company := data.orgs.head?
      emails := joinOpt data.emails
      phones := joinOpt data.phones
      sourceUrl := data.url })

/-! ### Phone regular expression (`PHONE_REGEX`, line 23)

`PHONE_REGEX` is the raw pattern `(?:(?:\+|00)?91[\s\-]?)?[6-9]\d{9}`: an
optional country prefix — `91`, `+91` or `0091`, optionally followed by one
whitespace character or hyphen — and then one digit `6`-`9` followed by
exactly nine digits. -/

/-- One decimal digit, the regex class `\d` (ASCII, as matched here). -/
def isDigit (c : Char) : Bool := decide ('0' ≤ c) && decide (c ≤ '9')

/-- A digit `6`-`9`, the regex class `[6-9]`. -/
def isHiDigit (c : Char) : Bool := decide ('6' ≤ c) && decide (c ≤ '9')

/-- The regex class `[\s\-]`: one whitespace character or a hyphen. -/
def isSep (c : Char) : Bool :=
  c == ' ' || c == '\t' || c == '\n' || c == '\r' ||
    c == '\x0b' || c == '\x0c' || c == '-'

/-- The mandatory tail of the pattern, `[6-9]\d{9}`: exactly ten
characters, a digit `6`-`9` followed by nine digits. -/
def phoneCore (s : List Char) : Bool :=
  match s with
  | [] => false
  | c :: rest => isHiDigit c && (rest.length == 9) && rest.all isDigit

/-- What may follow the country code `91`: `[\s\-]?` then the core. -/
def afterCC (s : List Char) : Bool :=
  phoneCore s ||
    (match s with
     | [] => false
     | c :: rest => isSep c && phoneCore rest)

/-- Full match of `PHONE_REGEX` against an entire character sequence: one
of the four prefix alternatives (`no prefix`, `91`, `+91`, `0091`)
followed by the rest of the pattern. -/
def phoneFullMatch (s : List Char) : Bool :=
  phoneCore s ||
    (decide (s.take 2 = ['9', '1']) && afterCC (s.drop 2)) ||
    (decide (s.take 3 = ['+', '9', '1']) && afterCC (s.drop 3)) ||
    (decide (s.take 4 = ['0', '0', '9', '1']) && afterCC (s.drop 4))

/-- Search semantics of `re.findall`: some contiguous part of the text
matches the pattern (`re.findall(PHONE_REGEX, s)` is nonempty exactly when
this holds). -/
def phoneSearch (s : List Char) : Bool :=
  s.tails.any (fun t => t.inits.any phoneFullMatch)

/-! ### Link discovery (`get_links`, lines 57-72) -/

/-- Link-collection loop of lines 64-69: for each resolved href in document
order, if the base host occurs as a substring of the FULL href text the
link is added to the set (`links.add(href)`), and collection stops as soon
as `max_pages` links have been gathered.  The Python set is modelled as a
duplicate-free accumulator list. -/
def get_links_aux (domain : String) (maxPages : Nat) :
    List String → List String → List String
  | acc, [] => acc
  | acc, h :: rest =>
    if inStr domain h then
      let acc2 := if acc.contains h then acc else acc ++ [h]
      if maxPages ≤ acc2.length then acc2
      else get_links_aux domain maxPages acc2 rest
    else get_links_aux domain maxPages acc rest

/-- The `get_links` function: `hrefs` are the already resolved
`urljoin(base_url, a['href'])` values of the page's anchors in document
order; a link passes the filter exactly when `urlparse(base_url).netloc`
occurs in the full href string (`if domain in href`, line 66). -/
def get_links (base_url : String) (hrefs : List String) (maxPages : Nat) :
    List String :=
  get_links_aux (netloc base_url) maxPages [] hrefs

/-! ### Crawl orchestration (`crawl_and_scrape`, lines 100-128)

The orchestrator's mutable state is the in-memory visited set
(`visited_links`), the accumulated result records (`results`), and — for
the skip-behavior claims — the log of URLs on which `scrape_page` has been
invoked.  The fallible `scrape_page` is passed in as an oracle
`scrape : String → Option PageRecord`, and `get_links` (whose own HTTP
fetch makes it page-dependent) as an oracle `linksOf`. -/

/-- Visited set, accumulated records and the scrape-invocation log. -/
structure CrawlState where
  visited : Finset String
  records : List ContactRecord
  calls : List String

/-- Body of the inner loop (lines 107-125): a page already visited is
skipped outright; otherwise `scrape_page` is invoked (logged in `calls`),
and only on success is the page marked visited and expanded into
records. -/
def processPage (scrape : String → Option PageRecord) (s : CrawlState)
    (page : String) : CrawlState :=
  if page ∈ s.visited then s
  else
    match scrape page with
    | some data =>
      { visited := insert page s.visited
        records := s.records ++ expandRecords data
        calls := s.calls ++ [page] }
    | none => { s with calls := s.calls ++ [page] }

/-- The inner loop over the candidate pages of one site. -/
def processPages (scrape : String → Option PageRecord) (s : CrawlState)
    (pages : List String) : CrawlState :=
  pages.foldl (processPage scrape) s

/-- The `crawl_and_scrape` function: for each base URL of the batch, the
candidate page list is the base followed by its discovered links
(`pages.insert(0, base_url)`, line 106), processed in order. -/
def crawl_and_scrape (scrape : String → Option PageRecord)
    (linksOf : String → List String) (s : CrawlState)
    (url_batch : List String) : CrawlState :=
  url_batch.foldl (fun st base => processPages scrape st (base :: linksOf base)) s

/-! ### Batch selection (`main`, lines 189-196) -/

/-- Batch selection of `main`: `remaining_urls = list(all_urls -
visited_links)` — the set difference iterated over the candidate pool —
then `batch = remaining_urls[:num_websites]`. -/
def select_batch (pool : List String) (visited : Finset String) (b : Nat) :
    List String :=
  (pool.filter (fun u => decide (u ∉ visited))).take b

/-! ### Verification of the claims, with supporting lemmas -/

/-- Membership in the deduplicated output, relative to an initial `seen`
set: a record is kept iff its signature is not in `seen` and it is the
first input record carrying its signature. -/
lemma mem_dedupAux (rs : List ContactRecord)
    (seen : List (Option String × Option String)) (x : ContactRecord) :
    x ∈ dedupAux seen rs ↔
      sig x ∉ seen ∧
        rs.find? (fun r => decide (sig r = sig x)) = some x := by
  induction rs generalizing seen with
  | nil => simp [dedupAux]
  | cons r rest ih =>
    rw [dedupAux]
    by_cases hsig : sig r = sig x
    · by_cases hseen : sig r ∈ seen
      · rw [if_pos hseen, ih]
        have hxseen : sig x ∈ seen := hsig ▸ hseen
        simp [hxseen]
      · rw [if_neg hseen, List.find?_cons_of_pos _ (by simpa using hsig)]
        constructor
        · intro hx
          rcases List.mem_cons.mp hx with h | h
          · subst h
            exact ⟨fun hc => hseen (hsig.symm ▸ hc), rfl⟩
          · have h1 := ((ih _).mp h).1
            rw [← hsig] at h1
            exact absurd (List.mem_cons_self _ _) h1
        · rintro ⟨hxseen, hr⟩
          exact List.mem_cons.mpr (Or.inl (Option.some.inj hr).symm)
    · rw [List.find?_cons_of_neg _ (by simpa using hsig)]
      by_cases hseen : sig r ∈ seen
      · rw [if_pos hseen, ih]
      · rw [if_neg hseen]
        constructor
        · intro hx
          rcases List.mem_cons.mp hx with h | h
          · exact absurd (congrArg sig h).symm hsig
          · rcases (ih _).mp h with ⟨hnot, hf⟩
            exact ⟨fun hc => hnot (List.mem_cons_of_mem _ hc), hf⟩
        · rintro ⟨hxseen, hf⟩
          refine List.mem_cons_of_mem _ ((ih _).mpr ⟨?_, hf⟩)
          simp only [List.mem_cons, not_or]
          exact ⟨fun h => hsig h.symm, hxseen⟩

/-- The deduplicated output has pairwise distinct signatures. -/
lemma pairwise_dedupAux (rs : List ContactRecord)
    (seen : List (Option String × Option String)) :
    (dedupAux seen rs).Pairwise (fun a b => sig a ≠ sig b) := by
  induction rs generalizing seen with
  | nil => simp [dedupAux]
  | cons r rest ih =>
    by_cases hseen : sig r ∈ seen
    · rw [dedupAux, if_pos hseen]; exact ih seen
    · rw [dedupAux, if_neg hseen]
      refine List.Pairwise.cons ?_ (ih _)
      intro y hy
      rcases (mem_dedupAux rest _ y).mp hy with ⟨hnot, _⟩
      intro hcontra
      exact hnot (List.mem_cons.mpr (Or.inl hcontra.symm))

/-- The deduplicated output is a sublist of the input. -/
lemma dedupAux_sublist (rs : List ContactRecord)
    (seen : List (Option String × Option String)) :
    (dedupAux seen rs).Sublist rs := by
  induction rs generalizing seen with
  | nil => simp [dedupAux]
  | cons r rest ih =>
    by_cases hseen : sig r ∈ seen
    · rw [dedupAux, if_pos hseen]
      exact List.Sublist.cons r (ih seen)
    · rw [dedupAux, if_neg hseen]
      exact List.Sublist.cons₂ r (ih _)

/-- A list whose signatures are pairwise distinct and disjoint from `seen`
passes through the deduplication loop unchanged. -/
lemma dedupAux_eq_self (rs : List ContactRecord)
    (seen : List (Option String × Option String))
    (hdisj : ∀ x ∈ rs, sig x ∉ seen)
    (hpw : rs.Pairwise (fun a b => sig a ≠ sig b)) :
    dedupAux seen rs = rs := by
  induction rs generalizing seen with
  | nil => simp [dedupAux]
  | cons r rest ih =>
    rw [dedupAux, if_neg (hdisj r (List.mem_cons_self _ _))]
    rcases List.pairwise_cons.mp hpw with ⟨hhead, htail⟩
    refine congrArg (r :: ·) (ih _ ?_ htail)
    intro x hx
    simp only [List.mem_cons, not_or]
    exact ⟨fun h => hhead x hx h.symm, hdisj x (List.mem_cons_of_mem _ hx)⟩

/-- A prefix of a string is still a prefix after appending to the right. -/
lemma startswith_append_left (p a b : String) (h : startswith p a = true) :
    startswith p (a ++ b) = true := by
  unfold startswith at h ⊢
  rw [List.isPrefixOf_iff_prefix] at h ⊢
  rw [String.data_append]
  exact h.trans (List.prefix_append _ _)

/-- Mapping a function of the optional indexed element over the index range
of a list is the same as mapping over the list itself. -/
lemma range_map_get? {α β : Type} (l : List α) (g : Option α → β) :
    (List.range l.length).map (fun i => g (l.get? i)) =
      l.map (fun n => g (some n)) := by
  induction l with
  | nil => simp
  | cons a t ih =>
    have hr : List.range (a :: t).length =
        0 :: (List.range t.length).map Nat.succ := by
      simpa using List.range_succ_eq_map t.length
    rw [hr, List.map_cons, List.map_map, List.map_cons]
    refine congrArg₂ _ rfl ?_
    have : ((fun i => g ((a :: t).get? i)) ∘ Nat.succ) =
        (fun i => g (t.get? i)) := by
      funext i
      simp
    rw [this, ih]

/-- A prefix of the local part is a prefix of the whole email string. -/
lemma startswith_of_local (p localPart domainPart : String)
    (h : startswith p localPart = true) :
    startswith p (localPart ++ "@" ++ domainPart) = true := by
  rw [String.append_assoc]
  exact startswith_append_left _ _ _ h

/-- If the whole email does not start with `p`, neither does its local
part. -/
lemma local_not_startswith (p localPart domainPart : String)
    (h : startswith p (localPart ++ "@" ++ domainPart) = false) :
    startswith p localPart = false := by
  cases hb : startswith p localPart with
  | false => rfl
  | true =>
    rw [startswith_of_local p localPart domainPart hb] at h
    exact h

/-- C2: for every page the Contact Extractor succeeds on, no email in the
returned email list starts with `noreply`, `no-reply` or `donotreply`
(case-sensitively; equivalently, for any split of the email at an `@`, its
local part does not start with one of those prefixes), and the returned
email and phone lists contain no exact-string duplicates. -/
theorem scrape_page_email_filter_nodup (fetch : String → Option RawPage)
    (url : String) (pr : PageRecord)
    (h : scrape_page fetch url = some pr) :
    (∀ e ∈ pr.emails,
        isFilteredEmail e = false ∧
        ∀ localPart domainPart : String,
          e = localPart ++ "@" ++ domainPart →
            startswith "noreply" localPart = false ∧
            startswith "no-reply" localPart = false ∧
            startswith "donotreply" localPart = false) ∧
    pr.emails.Nodup ∧ pr.phones.Nodup := by
  rcases hf : fetch url with _ | p
  · rw [scrape_page, hf] at h
    cases h
  · rw [scrape_page, hf] at h
    injection h with h'
    subst h'
    refine ⟨?_, ?_, ?_⟩
    · intro e he
      have hmem := List.mem_filter.mp he
      have hfalse : isFilteredEmail e = false := by
        simpa using hmem.2
      refine ⟨hfalse, ?_⟩
      intro localPart domainPart heq
      have h3 : (startswith "noreply" e = false ∧
          startswith "no-reply" e = false) ∧
          startswith "donotreply" e = false := by
        simpa [isFilteredEmail] using hfalse
      subst heq
      exact ⟨local_not_startswith _ _ _ h3.1.1,
        local_not_startswith _ _ _ h3.1.2,
        local_not_startswith _ _ _ h3.2⟩
    · exact (List.nodup_dedup _).filter _
    · exact List.nodup_dedup _

/-- Witness for C2: a concrete page whose raw matches contain a duplicate
email, a `noreply` address and a duplicate phone. -/
theorem scrape_page_email_filter_nodup_witness :
    scrape_page
        (fun _ => some ⟨["a@b.in", "noreply@b.in", "a@b.in"],
          ["9876543210", "9876543210"], [], []⟩) "u" =
      some ⟨"u", [], [], ["a@b.in"], ["9876543210"]⟩ ∧
    (PageRecord.mk "u" [] [] ["a@b.in"] ["9876543210"]).emails.Nodup ∧
    (PageRecord.mk "u" [] [] ["a@b.in"] ["9876543210"]).phones.Nodup :=
  ⟨by rfl,
    (scrape_page_email_filter_nodup
      (fun _ => some ⟨["a@b.in", "noreply@b.in", "a@b.in"],
        ["9876543210", "9876543210"], [], []⟩) "u"
      ⟨"u", [], [], ["a@b.in"], ["9876543210"]⟩ (by rfl)).2⟩

/-- C4: a successful PageRecord expands into exactly `max(len(names), 1)`
ContactRecords: one per detected name carrying that name (or a single
record with an absent person name when no names were detected), each with
the first detected organization as company (absent if none), the
comma-join of the emails (absent if empty) and the comma-join of the
phones (absent if empty). -/
theorem expand_records_spec (data : PageRecord) :
    (expandRecords data).length = max data.names.length 1 ∧
    (data.names = [] →
      expandRecords data =
        [⟨none, none, data.orgs.head?, joinOpt data.emails,
          joinOpt data.phones, data.url⟩]) ∧
    (data.names ≠ [] →
      expandRecords data =
        data.names.map (fun n =>
          ⟨some n, none, data.orgs.head?, joinOpt data.emails,
            joinOpt data.phones, data.url⟩)) := by
  refine ⟨by simp [expandRecords], ?_, ?_⟩
  · intro hnil
    simp [expandRecords, hnil, List.range_succ]
  · intro hne
    have hlen : 1 ≤ data.names.length := by
      cases hd : data.names with
      | nil => exact absurd hd hne
      | cons a t => simp [hd]
    rw [expandRecords, Nat.max_eq_left hlen]
    exact @range_map_get? String ContactRecord data.names (fun o =>
      ⟨o, none, data.orgs.head?, joinOpt data.emails,
        joinOpt data.phones, data.url⟩)

/-- Witness for C4: the page of end-to-end scenario 1 (one detected name,
no organization, one email, one phone) expands into exactly one fully
populated record. -/
theorem expand_records_spec_witness :
    (["Jane Doe"] : List String) ≠ [] ∧
    expandRecords ⟨"https://example.in", ["Jane Doe"], [],
        ["jane@example.in"], ["9876543210"]⟩ =
      [⟨some "Jane Doe", none, none, some "jane@example.in",
        some "9876543210", "https://example.in"⟩] := by
  refine ⟨by simp, ?_⟩
  have h := (expand_records_spec ⟨"https://example.in", ["Jane Doe"], [],
    ["jane@example.in"], ["9876543210"]⟩).2.2 (by simp)
  simpa [joinOpt, commaJoin] using h

/-- C7: the Deduplicator keeps exactly the first record observed for each
`(emails, phones)` signature in input order — a record is in the output
iff it is what `find?` locates first in the input for its signature — and
any two records at distinct positions of the output have distinct
signatures. -/
theorem deduplicate_first_per_signature (rs : List ContactRecord) :
    (deduplicate rs).Pairwise (fun a b => sig a ≠ sig b) ∧
    ∀ x, x ∈ deduplicate rs ↔
      rs.find? (fun r => decide (sig r = sig x)) = some x := by
  refine ⟨pairwise_dedupAux rs [], fun x => ?_⟩
  rw [deduplicate, mem_dedupAux]
  simp

/-- Witness for C7: two records sharing a signature but with different
person names and source URLs collapse to the first one. -/
theorem deduplicate_first_per_signature_witness :
    deduplicate
        [⟨some "A", none, none, some "c@firm.in", none, "u1"⟩,
          ⟨some "B", none, none, some "c@firm.in", none, "u2"⟩] =
      [⟨some "A", none, none, some "c@firm.in", none, "u1"⟩] ∧
    (deduplicate
        [⟨some "A", none, none, some "c@firm.in", none, "u1"⟩,
          ⟨some "B", none, none, some "c@firm.in", none, "u2"⟩]).Pairwise
      (fun a b => sig a ≠ sig b) :=
  ⟨by rfl,
    (deduplicate_first_per_signature
      [⟨some "A", none, none, some "c@firm.in", none, "u1"⟩,
        ⟨some "B", none, none, some "c@firm.in", none, "u2"⟩]).1⟩

/-- C10: the Deduplicator is idempotent, and its output is a sublist
(subsequence, in input order) of its input. -/
theorem deduplicate_idempotent_sublist (rs : List ContactRecord) :
    deduplicate (deduplicate rs) = deduplicate rs ∧
    (deduplicate rs).Sublist rs := by
  refine ⟨?_, dedupAux_sublist rs []⟩
  exact dedupAux_eq_self _ _ (by simp) (pairwise_dedupAux rs [])

/-- A core match is exactly ten characters long. -/
lemma phoneCore_length (s : List Char) (h : phoneCore s = true) :
    s.length = 10 := by
  match s with
  | [] => exact absurd h (by simp [phoneCore])
  | c :: rest =>
    simp only [phoneCore, Bool.and_eq_true, beq_iff_eq] at h
    simp [h.1.2]

/-- A match of the part after the country code is ten or eleven characters
long. -/
lemma afterCC_length (s : List Char) (h : afterCC s = true) :
    s.length = 10 ∨ s.length = 11 := by
  rw [afterCC.eq_def, Bool.or_eq_true] at h
  rcases h with h | h
  · exact Or.inl (phoneCore_length s h)
  · match s with
    | [] => exact absurd h (by simp)
    | c :: rest =>
      simp only [Bool.and_eq_true] at h
      right
      simp [phoneCore_length rest h.2]

/-- Any full match of the pattern is at least ten characters long. -/
lemma phoneFullMatch_length (s : List Char) (h : phoneFullMatch s = true) :
    10 ≤ s.length := by
  rw [phoneFullMatch] at h
  simp only [Bool.or_eq_true, Bool.and_eq_true, decide_eq_true_eq] at h
  rcases h with ((h | ⟨ht, hcc⟩) | ⟨ht, hcc⟩) | ⟨ht, hcc⟩
  · simp [phoneCore_length s h]
  · have := afterCC_length _ hcc
    simp only [List.length_drop] at this
    omega
  · have := afterCC_length _ hcc
    simp only [List.length_drop] at this
    omega
  · have := afterCC_length _ hcc
    simp only [List.length_drop] at this
    omega

/-- A full match that is exactly ten characters long is a bare core match
(no country prefix fits in ten characters). -/
lemma phoneFullMatch_ten (s : List Char) (h : phoneFullMatch s = true)
    (hlen : s.length = 10) : phoneCore s = true := by
  rw [phoneFullMatch] at h
  simp only [Bool.or_eq_true, Bool.and_eq_true, decide_eq_true_eq] at h
  rcases h with ((h | ⟨ht, hcc⟩) | ⟨ht, hcc⟩) | ⟨ht, hcc⟩
  · exact h
  · have := afterCC_length _ hcc
    simp only [List.length_drop] at this
    omega
  · have := afterCC_length _ hcc
    simp only [List.length_drop] at this
    omega
  · have := afterCC_length _ hcc
    simp only [List.length_drop] at this
    omega

/-- An optional separator followed by a core match satisfies the part of
the pattern after the country code. -/
lemma afterCC_of_sep (sep core : List Char)
    (hsep : sep = [] ∨ ∃ d, sep = [d] ∧ isSep d = true)
    (hcore : phoneCore core = true) :
    afterCC (sep ++ core) = true := by
  rcases hsep with h | ⟨d, h, hd⟩
  · subst h
    rw [List.nil_append, afterCC.eq_def]
    simp [hcore]
  · subst h
    rw [List.cons_append, List.nil_append, afterCC.eq_def]
    simp [hd, hcore]

/-- C3: a ten-digit string whose first digit is 6-9 matches `PHONE_REGEX`
in full, bare or preceded by `+91` or `0091` with an optional separator;
and from any ten-digit string whose first digit is 0-5, `re.findall`
extracts no phone (no contiguous part of it matches the pattern). -/
theorem phone_pattern_spec (c : Char) (rest sep : List Char)
    (hc : isHiDigit c = true) (hlen : rest.length = 9)
    (hdig : rest.all isDigit = true)
    (hsep : sep = [] ∨ ∃ d, sep = [d] ∧ isSep d = true) :
    phoneFullMatch (c :: rest) = true ∧
    phoneFullMatch ('+' :: '9' :: '1' :: (sep ++ c :: rest)) = true ∧
    phoneFullMatch ('0' :: '0' :: '9' :: '1' :: (sep ++ c :: rest)) = true ∧
    ∀ (c' : Char) (rest' : List Char), c' ≤ '5' →
      (c' :: rest').length = 10 → (c' :: rest').all isDigit = true →
      phoneSearch (c' :: rest') = false := by
  have hcore : phoneCore (c :: rest) = true := by
    simp [phoneCore, hc, hlen, hdig]
  refine ⟨by rw [phoneFullMatch]; simp [hcore], ?_, ?_, ?_⟩
  · rw [phoneFullMatch]
    simp only [Bool.or_eq_true, Bool.and_eq_true, decide_eq_true_eq]
    exact Or.inl (Or.inr ⟨rfl, afterCC_of_sep sep _ hsep hcore⟩)
  · rw [phoneFullMatch]
    simp only [Bool.or_eq_true, Bool.and_eq_true, decide_eq_true_eq]
    exact Or.inr ⟨rfl, afterCC_of_sep sep _ hsep hcore⟩
  · intro c' rest' hle hlen' hdig'
    cases hps : phoneSearch (c' :: rest') with
    | false => rfl
    | true =>
      exfalso
      rw [phoneSearch, List.any_eq_true] at hps
      obtain ⟨t, ht, hu⟩ := hps
      rw [List.any_eq_true] at hu
      obtain ⟨u, hui, hmu⟩ := hu
      have hinf : u <:+: (c' :: rest') :=
        List.infix_iff_prefix_suffix.mpr
          ⟨t, (List.mem_inits _ _).mp hui, (List.mem_tails _ _).mp ht⟩
      have hle10 := hinf.length_le
      have h10 := phoneFullMatch_length u hmu
      have hequ : u = c' :: rest' :=
        hinf.sublist.eq_of_length_le (by omega)
      rw [hequ] at hmu
      have hcoreS := phoneFullMatch_ten _ hmu hlen'
      have hhi : isHiDigit c' = true := by
        simp only [phoneCore, Bool.and_eq_true] at hcoreS
        exact hcoreS.1.1
      have h6 : ('6' : Char) ≤ c' := by
        simp only [isHiDigit, Bool.and_eq_true, decide_eq_true_eq] at hhi
        exact hhi.1
      exact absurd (le_trans h6 hle) (by decide)

/-- Witness for C3: `+91 9876543210` matches in full, and the ten-digit
string `0123456789` (first digit 0) yields no phone at all. -/
theorem phone_pattern_spec_witness :
    phoneFullMatch ('+' :: '9' :: '1' :: ([' '] ++ '9' :: "876543210".data)) = true ∧
    phoneSearch ('0' :: "123456789".data) = false := by
  have h := phone_pattern_spec '9' "876543210".data [' ']
    (by decide) (by decide) (by decide) (Or.inr ⟨' ', rfl, by decide⟩)
  exact ⟨h.2.1, h.2.2.2 '0' "123456789".data (by decide) (by decide) (by decide)⟩

/-- Unfolding equation for the collection loop on a nonempty href list. -/
lemma get_links_aux_cons (domain : String) (n : Nat) (acc : List String)
    (h : String) (rest : List String) :
    get_links_aux domain n acc (h :: rest) =
      if inStr domain h then
        (if n ≤ (if acc.contains h then acc else acc ++ [h]).length
         then (if acc.contains h then acc else acc ++ [h])
         else get_links_aux domain n
           (if acc.contains h then acc else acc ++ [h]) rest)
      else get_links_aux domain n acc rest := by
  rw [get_links_aux]

/-- Soundness of the collection loop: everything collected was already in
the accumulator or is an input href on which the substring filter
succeeded. -/
lemma mem_get_links_aux (domain : String) (n : Nat) (hrefs : List String) :
    ∀ acc l, l ∈ get_links_aux domain n acc hrefs →
      l ∈ acc ∨ (inStr domain l = true ∧ l ∈ hrefs) := by
  induction hrefs with
  | nil =>
    intro acc l hl
    rw [get_links_aux] at hl
    exact Or.inl hl
  | cons h rest ih =>
    intro acc l hl
    rw [get_links_aux_cons] at hl
    by_cases hin : inStr domain h = true
    · rw [if_pos hin] at hl
      set acc2 := if acc.contains h then acc else acc ++ [h] with hacc2
      have hacc2mem : ∀ x, x ∈ acc2 → x ∈ acc ∨ x = h := by
        intro x hx
        rw [hacc2] at hx
        by_cases hc : acc.contains h = true
        · rw [if_pos hc] at hx
          exact Or.inl hx
        · rw [if_neg hc] at hx
          rcases List.mem_append.mp hx with hx | hx
          · exact Or.inl hx
          · exact Or.inr (List.mem_singleton.mp hx)
      by_cases hcap : n ≤ acc2.length
      · rw [if_pos hcap] at hl
        rcases hacc2mem l hl with h1 | h1
        · exact Or.inl h1
        · subst h1
          exact Or.inr ⟨hin, List.mem_cons_self _ _⟩
      · rw [if_neg hcap] at hl
        rcases ih acc2 l hl with h1 | h1
        · rcases hacc2mem l h1 with h2 | h2
          · exact Or.inl h2
          · subst h2
            exact Or.inr ⟨hin, List.mem_cons_self _ _⟩
        · exact Or.inr ⟨h1.1, List.mem_cons_of_mem _ h1.2⟩
    · rw [if_neg hin] at hl
      rcases ih acc l hl with h1 | h1
      · exact Or.inl h1
      · exact Or.inr ⟨h1.1, List.mem_cons_of_mem _ h1.2⟩

/-- Completeness of the collection loop when the cap is large enough to
hold the accumulator plus all remaining hrefs: every href passing the
substring filter is collected. -/
lemma get_links_aux_complete (domain : String) (n : Nat) (hrefs : List String) :
    ∀ acc, acc.length + hrefs.length ≤ n →
      ∀ l, (l ∈ acc ∨ (inStr domain l = true ∧ l ∈ hrefs)) →
        l ∈ get_links_aux domain n acc hrefs := by
  induction hrefs with
  | nil =>
    intro acc hcap l hl
    rcases hl with hl | ⟨_, hl⟩
    · rw [get_links_aux]
      exact hl
    · exact absurd hl (List.not_mem_nil l)
  | cons h rest ih =>
    intro acc hcap l hl
    rw [List.length_cons] at hcap
    rw [get_links_aux_cons]
    by_cases hin : inStr domain h = true
    · rw [if_pos hin]
      set acc2 := if acc.contains h then acc else acc ++ [h] with hacc2
      have hsub : ∀ x, x ∈ acc → x ∈ acc2 := by
        intro x hx
        rw [hacc2]
        by_cases hc : acc.contains h = true
        · rw [if_pos hc]
          exact hx
        · rw [if_neg hc]
          exact List.mem_append_left _ hx
      have hh : h ∈ acc2 := by
        rw [hacc2]
        by_cases hc : acc.contains h = true
        · rw [if_pos hc]
          exact List.elem_iff.mp hc
        · rw [if_neg hc]
          exact List.mem_append_right _ (List.mem_singleton_self h)
      have hlen2 : acc2.length ≤ acc.length + 1 := by
        rw [hacc2]
        by_cases hc : acc.contains h = true
        · rw [if_pos hc]
          omega
        · rw [if_neg hc]
          simp
      by_cases hcap2 : n ≤ acc2.length
      · rw [if_pos hcap2]
        have hrest : rest = [] := by
          have := List.length_eq_zero.mp (show rest.length = 0 by omega)
          exact this
        rcases hl with hl | ⟨hin2, hl⟩
        · exact hsub l hl
        · rcases List.mem_cons.mp hl with h1 | h1
          · subst h1
            exact hh
          · rw [hrest] at h1
            exact absurd h1 (List.not_mem_nil l)
      · rw [if_neg hcap2]
        refine ih acc2 (by omega) l ?_
        rcases hl with hl | ⟨hin2, hl⟩
        · exact Or.inl (hsub l hl)
        · rcases List.mem_cons.mp hl with h1 | h1
          · subst h1
            exact Or.inl hh
          · exact Or.inr ⟨hin2, h1⟩
    · rw [if_neg hin]
      refine ih acc (by omega) l ?_
      rcases hl with hl | ⟨hin2, hl⟩
      · exact Or.inl hl
      · rcases List.mem_cons.mp hl with h1 | h1
        · subst h1
          exact absurd hin2 hin
        · exact Or.inr ⟨hin2, h1⟩

/-- C1 (amended): the Link Discoverer retains a resolved link exactly when
the base URL's host occurs as a substring of the FULL resolved link text
(not of the link's host component), the completeness direction holding
whenever the cap has room for all of the page's links. -/
theorem link_filter_full_url (base : String) (hrefs : List String) (n : Nat) :
    (∀ l, l ∈ get_links base hrefs n →
      inStr (netloc base) l = true ∧ l ∈ hrefs) ∧
    (hrefs.length ≤ n →
      ∀ l ∈ hrefs, inStr (netloc base) l = true →
        l ∈ get_links base hrefs n) := by
  constructor
  · intro l hl
    rcases mem_get_links_aux _ _ _ [] l hl with h | h
    · exact absurd h (List.not_mem_nil l)
    · exact h
  · intro hcap l hl hin
    exact get_links_aux_complete _ _ _ [] (by simpa using hcap) l
      (Or.inr ⟨hin, hl⟩)

/-- Witness for C1 (amended): a same-host link of the base is retained, and
what is retained passes the full-URL substring filter. -/
theorem link_filter_full_url_witness :
    (["http://a.in/x"] : List String).length ≤ 10 ∧
    ("http://a.in/x" : String) ∈ get_links "http://a.in" ["http://a.in/x"] 10 ∧
    inStr (netloc "http://a.in") "http://a.in/x" = true := by
  refine ⟨by decide, ?_, by decide⟩
  exact (link_filter_full_url "http://a.in" ["http://a.in/x"] 10).2
    (by decide) "http://a.in/x" (by decide) (by decide)

/-- Counterexample to C1 as stated: for base URL `http://a.in`, the page
link `http://b.io/?u=a.in` is retained by `get_links` — the base host
`a.in` occurs in the query string of the full URL — although the link's
host component `b.io` does not contain the base host; the code filters on
the full URL, not on the host component. -/
theorem link_filter_host_cex :
    get_links "http://a.in" ["http://b.io/?u=a.in"] 10 =
      ["http://b.io/?u=a.in"] ∧
    inStr (netloc "http://a.in") (netloc "http://b.io/?u=a.in") = false := by
  exact ⟨by decide, by decide⟩

/-- One page step only ever grows the visited set. -/
lemma processPage_visited_mono (scrape : String → Option PageRecord)
    (s : CrawlState) (page : String) :
    s.visited ⊆ (processPage scrape s page).visited := by
  rw [processPage]
  by_cases h : page ∈ s.visited
  · rw [if_pos h]
  · rw [if_neg h]
    cases hs : scrape page with
    | none => exact Finset.Subset.refl _
    | some d => exact Finset.subset_insert _ _

/-- A URL visited after one page step was already visited or scrapes
successfully. -/
lemma processPage_visited_src (scrape : String → Option PageRecord)
    (s : CrawlState) (page : String) :
    ∀ u ∈ (processPage scrape s page).visited,
      u ∈ s.visited ∨ ∃ d, scrape u = some d := by
  intro u hu
  rw [processPage] at hu
  by_cases h : page ∈ s.visited
  · rw [if_pos h] at hu
    exact Or.inl hu
  · rw [if_neg h] at hu
    cases hs : scrape page with
    | none =>
      rw [hs] at hu
      exact Or.inl hu
    | some d =>
      rw [hs] at hu
      rcases Finset.mem_insert.mp hu with h1 | h1
      · subst h1
        exact Or.inr ⟨d, hs⟩
      · exact Or.inl h1

/-- A record present after one page step was already accumulated or comes
from the expansion of a successful scrape. -/
lemma processPage_records_src (scrape : String → Option PageRecord)
    (s : CrawlState) (page : String) :
    ∀ r ∈ (processPage scrape s page).records,
      r ∈ s.records ∨ ∃ q d, scrape q = some d ∧ r ∈ expandRecords d := by
  intro r hr
  rw [processPage] at hr
  by_cases h : page ∈ s.visited
  · rw [if_pos h] at hr
    exact Or.inl hr
  · rw [if_neg h] at hr
    cases hs : scrape page with
    | none =>
      rw [hs] at hr
      exact Or.inl hr
    | some d =>
      rw [hs] at hr
      rcases List.mem_append.mp hr with h1 | h1
      · exact Or.inl h1
      · exact Or.inr ⟨page, d, hs, h1⟩

/-- A logged scrape invocation after one page step is an old one or is for
this page, which then was unvisited at the moment of the call. -/
lemma processPage_calls_src (scrape : String → Option PageRecord)
    (s : CrawlState) (page : String) :
    ∀ c ∈ (processPage scrape s page).calls,
      c ∈ s.calls ∨ (c = page ∧ page ∉ s.visited) := by
  intro c hc
  rw [processPage] at hc
  by_cases h : page ∈ s.visited
  · rw [if_pos h] at hc
    exact Or.inl hc
  · rw [if_neg h] at hc
    cases hs : scrape page with
    | none =>
      rw [hs] at hc
      rcases List.mem_append.mp hc with h1 | h1
      · exact Or.inl h1
      · exact Or.inr ⟨List.mem_singleton.mp h1, h⟩
    | some d =>
      rw [hs] at hc
      rcases List.mem_append.mp hc with h1 | h1
      · exact Or.inl h1
      · exact Or.inr ⟨List.mem_singleton.mp h1, h⟩

/-- A page that scrapes successfully is visited after its own step. -/
lemma processPage_self_visited (scrape : String → Option PageRecord)
    (s : CrawlState) (page : String) (h : ∃ d, scrape page = some d) :
    page ∈ (processPage scrape s page).visited := by
  rw [processPage]
  by_cases hv : page ∈ s.visited
  · rw [if_pos hv]
    exact hv
  · rw [if_neg hv]
    rcases h with ⟨d, hd⟩
    rw [hd]
    exact Finset.mem_insert_self _ _

/-- Invariants of the inner page loop: the visited set grows monotonically;
new visited URLs scrape successfully; new records come from successful
scrapes; new scrape invocations are only for URLs unvisited when the loop
started; and every listed page that scrapes successfully ends up
visited. -/
lemma processPages_spec (scrape : String → Option PageRecord)
    (pages : List String) :
    ∀ s : CrawlState,
      (s.visited ⊆ (processPages scrape s pages).visited) ∧
      (∀ u ∈ (processPages scrape s pages).visited,
        u ∈ s.visited ∨ ∃ d, scrape u = some d) ∧
      (∀ r ∈ (processPages scrape s pages).records,
        r ∈ s.records ∨ ∃ q d, scrape q = some d ∧ r ∈ expandRecords d) ∧
      (∀ c ∈ (processPages scrape s pages).calls,
        c ∈ s.calls ∨ c ∉ s.visited) ∧
      (∀ p ∈ pages, (∃ d, scrape p = some d) →
        p ∈ (processPages scrape s pages).visited) := by
  induction pages with
  | nil =>
    intro s
    refine ⟨Finset.Subset.refl _, fun u hu => Or.inl hu,
      fun r hr => Or.inl hr, fun c hc => Or.inl hc, fun p hp => ?_⟩
    exact absurd hp (List.not_mem_nil p)
  | cons q rest ih =>
    intro s
    have hfold : processPages scrape s (q :: rest) =
        processPages scrape (processPage scrape s q) rest := by
      rw [processPages, List.foldl_cons, processPages]
    rw [hfold]
    obtain ⟨ih1, ih2, ih3, ih4, ih5⟩ := ih (processPage scrape s q)
    refine ⟨?_, ?_, ?_, ?_, ?_⟩
    · exact Finset.Subset.trans (processPage_visited_mono scrape s q) ih1
    · intro u hu
      rcases ih2 u hu with h1 | h1
      · exact processPage_visited_src scrape s q u h1
      · exact Or.inr h1
    · intro r hr
      rcases ih3 r hr with h1 | h1
      · exact processPage_records_src scrape s q r h1
      · exact Or.inr h1
    · intro c hc
      rcases ih4 c hc with h1 | h1
      · rcases processPage_calls_src scrape s q c h1 with h2 | ⟨h2, h3⟩
        · exact Or.inl h2
        · subst h2
          exact Or.inr h3
      · exact Or.inr (fun hc2 => h1 (processPage_visited_mono scrape s q hc2))
    · intro p hp hsome
      rcases List.mem_cons.mp hp with h1 | h1
      · subst h1
        exact ih1 (processPage_self_visited scrape s p hsome)
      · exact ih5 p h1 hsome

/-- The page-loop invariants lifted to a whole batch of base URLs, plus:
every base URL of the batch that scrapes successfully is visited
afterwards. -/
lemma crawl_spec (scrape : String → Option PageRecord)
    (linksOf : String → List String) (batch : List String) :
    ∀ s : CrawlState,
      (s.visited ⊆ (crawl_and_scrape scrape linksOf s batch).visited) ∧
      (∀ u ∈ (crawl_and_scrape scrape linksOf s batch).visited,
        u ∈ s.visited ∨ ∃ d, scrape u = some d) ∧
      (∀ r ∈ (crawl_and_scrape scrape linksOf s batch).records,
        r ∈ s.records ∨ ∃ q d, scrape q = some d ∧ r ∈ expandRecords d) ∧
      (∀ c ∈ (crawl_and_scrape scrape linksOf s batch).calls,
        c ∈ s.calls ∨ c ∉ s.visited) ∧
      (∀ b ∈ batch, (∃ d, scrape b = some d) →
        b ∈ (crawl_and_scrape scrape linksOf s batch).visited) := by
  induction batch with
  | nil =>
    intro s
    refine ⟨Finset.Subset.refl _, fun u hu => Or.inl hu,
      fun r hr => Or.inl hr, fun c hc => Or.inl hc, fun b hb => ?_⟩
    exact absurd hb (List.not_mem_nil b)
  | cons base bs ih =>
    intro s
    have hfold : crawl_and_scrape scrape linksOf s (base :: bs) =
        crawl_and_scrape scrape linksOf
          (processPages scrape s (base :: linksOf base)) bs := by
      rw [crawl_and_scrape, List.foldl_cons, crawl_and_scrape]
    rw [hfold]
    obtain ⟨pp1, pp2, pp3, pp4, pp5⟩ :=
      processPages_spec scrape (base :: linksOf base) s
    obtain ⟨ih1, ih2, ih3, ih4, ih5⟩ :=
      ih (processPages scrape s (base :: linksOf base))
    refine ⟨Finset.Subset.trans pp1 ih1, ?_, ?_, ?_, ?_⟩
    · intro u hu
      rcases ih2 u hu with h1 | h1
      · exact pp2 u h1
      · exact Or.inr h1
    · intro r hr
      rcases ih3 r hr with h1 | h1
      · exact pp3 r h1
      · exact Or.inr h1
    · intro c hc
      rcases ih4 c hc with h1 | h1
      · exact pp4 c h1
      · exact Or.inr (fun hc2 => h1 (pp1 hc2))
    · intro b hb hsome
      rcases List.mem_cons.mp hb with h1 | h1
      · subst h1
        exact ih1 (pp5 b (List.mem_cons_self _ _) hsome)
      · exact ih5 b h1 hsome

/-- The visited set and record list produced by one page step depend only
on the incoming visited set and record list, not on the call log. -/
lemma processPage_vr_congr (scrape : String → Option PageRecord)
    (page : String) (s₁ s₂ : CrawlState)
    (hv : s₁.visited = s₂.visited) (hr : s₁.records = s₂.records) :
    (processPage scrape s₁ page).visited = (processPage scrape s₂ page).visited ∧
    (processPage scrape s₁ page).records = (processPage scrape s₂ page).records := by
  rw [processPage, processPage]
  by_cases h : page ∈ s₂.visited
  · rw [if_pos (by rw [hv]; exact h), if_pos h]
    exact ⟨hv, hr⟩
  · rw [if_neg (by rw [hv]; exact h), if_neg h]
    cases hs : scrape page with
    | none => exact ⟨hv, hr⟩
    | some d => exact ⟨by rw [hv], by rw [hr]⟩

/-- The page loop's visited set and records likewise ignore the call
log. -/
lemma processPages_vr_congr (scrape : String → Option PageRecord)
    (pages : List String) :
    ∀ s₁ s₂ : CrawlState, s₁.visited = s₂.visited → s₁.records = s₂.records →
      (processPages scrape s₁ pages).visited =
        (processPages scrape s₂ pages).visited ∧
      (processPages scrape s₁ pages).records =
        (processPages scrape s₂ pages).records := by
  induction pages with
  | nil =>
    intro s₁ s₂ hv hr
    exact ⟨hv, hr⟩
  | cons q rest ih =>
    intro s₁ s₂ hv hr
    have h1 : processPages scrape s₁ (q :: rest) =
        processPages scrape (processPage scrape s₁ q) rest := by
      rw [processPages, List.foldl_cons, processPages]
    have h2 : processPages scrape s₂ (q :: rest) =
        processPages scrape (processPage scrape s₂ q) rest := by
      rw [processPages, List.foldl_cons, processPages]
    rw [h1, h2]
    obtain ⟨hv2, hr2⟩ := processPage_vr_congr scrape q s₁ s₂ hv hr
    exact ih _ _ hv2 hr2

/-- C5: if the Contact Extractor fails on a URL (`scrape url = none`), then
after any batch that URL is in the visited set only if it already was
before, every accumulated record stems from a page whose extraction
succeeded (so the failing page contributes none), and processing a failing
page leaves the visited set and the records exactly as if the loop had
gone straight on to the remaining pages. -/
theorem failed_page_skipped (scrape : String → Option PageRecord)
    (linksOf : String → List String) (s : CrawlState) (batch : List String)
    (url : String) (h : scrape url = none) :
    (url ∈ (crawl_and_scrape scrape linksOf s batch).visited ↔
      url ∈ s.visited) ∧
    (∀ r ∈ (crawl_and_scrape scrape linksOf s batch).records,
      r ∈ s.records ∨ ∃ q d, scrape q = some d ∧ r ∈ expandRecords d) ∧
    (∀ (s' : CrawlState) (rest : List String),
      (processPages scrape s' (url :: rest)).visited =
        (processPages scrape s' rest).visited ∧
      (processPages scrape s' (url :: rest)).records =
        (processPages scrape s' rest).records) := by
  obtain ⟨c1, c2, c3, _, _⟩ := crawl_spec scrape linksOf batch s
  refine ⟨⟨?_, fun hu => c1 hu⟩, c3, ?_⟩
  · intro hu
    rcases c2 url hu with h1 | ⟨d, hd⟩
    · exact h1
    · rw [h] at hd
      exact absurd hd (by simp)
  · intro s' rest
    have hstep : processPages scrape s' (url :: rest) =
        processPages scrape (processPage scrape s' url) rest := by
      rw [processPages, List.foldl_cons, processPages]
    rw [hstep]
    by_cases hv : url ∈ s'.visited
    · rw [processPage, if_pos hv]
      exact ⟨rfl, rfl⟩
    · have hpp : processPage scrape s' url = { s' with calls := s'.calls ++ [url] } := by
        rw [processPage, if_neg hv, h]
      rw [hpp]
      exact processPages_vr_congr scrape rest _ s' rfl rfl

/-- Witness for C5: a batch whose only page always fails to scrape leaves
the visited set unchanged. -/
theorem failed_page_skipped_witness :
    (("http://dead.in" : String) ∈ (crawl_and_scrape (fun _ => none)
        (fun _ => []) ⟨∅, [], []⟩ ["http://dead.in"]).visited ↔
      ("http://dead.in" : String) ∈ (⟨∅, [], []⟩ : CrawlState).visited) :=
  (failed_page_skipped (fun _ => none) (fun _ => []) ⟨∅, [], []⟩
    ["http://dead.in"] "http://dead.in" rfl).1

/-- C6: orchestrating a batch never removes a URL from the visited set
(it is a superset of the one before), and every URL of the batch whose
extraction succeeds is in the visited set afterwards. -/
theorem visited_monotone (scrape : String → Option PageRecord)
    (linksOf : String → List String) (s : CrawlState) (batch : List String) :
    s.visited ⊆ (crawl_and_scrape scrape linksOf s batch).visited ∧
    ∀ url ∈ batch, (∃ d, scrape url = some d) →
      url ∈ (crawl_and_scrape scrape linksOf s batch).visited := by
  obtain ⟨c1, _, _, _, c5⟩ := crawl_spec scrape linksOf batch s
  exact ⟨c1, c5⟩

/-- Witness for C6: a batch with one successfully scraping URL marks it
visited. -/
theorem visited_monotone_witness :
    ("http://a.in" : String) ∈ (crawl_and_scrape
      (fun u => if u = "http://a.in" then some ⟨u, [], [], [], []⟩ else none)
      (fun _ => []) ⟨∅, [], []⟩ ["http://a.in"]).visited :=
  (visited_monotone
      (fun u => if u = "http://a.in" then some ⟨u, [], [], [], []⟩ else none)
      (fun _ => []) ⟨∅, [], []⟩ ["http://a.in"]).2 "http://a.in"
    (List.mem_singleton_self _)
    ⟨⟨"http://a.in", [], [], [], []⟩, by simp⟩

/-- C9: during a batch, a URL that is in the visited set when the batch
starts is never passed to the Contact Extractor: the call log gains no
entry equal to it (and since the visited set only grows, the same holds at
the moment each page is processed). -/
theorem visited_page_never_scraped (scrape : String → Option PageRecord)
    (linksOf : String → List String) (s : CrawlState) (batch : List String)
    (url : String) (h : url ∈ s.visited) :
    ∀ c ∈ (crawl_and_scrape scrape linksOf s batch).calls,
      c ∈ s.calls ∨ c ≠ url := by
  intro c hc
  rcases (crawl_spec scrape linksOf batch s).2.2.2.1 c hc with h1 | h1
  · exact Or.inl h1
  · exact Or.inr (fun he => h1 (he ▸ h))

/-- Witness for C9: with `v` already visited, the only logged call of a
batch over `[b, v]` is for `b`, and the theorem applies to it. -/
theorem visited_page_never_scraped_witness :
    ("b" : String) ∈ ([] : List String) ∨ ("b" : String) ≠ "v" :=
  visited_page_never_scraped (fun _ => none) (fun _ => [])
    ⟨{"v"}, [], []⟩ ["b", "v"] "v" (by simp) "b" (by simp [crawl_and_scrape, processPages, processPage])

/-- C8: the Batch Selector returns at most `b` URLs, each drawn from the
pool and none already visited; and in the concrete scenario of a pool of 7
URLs with 5 visited and batch size 5, it returns exactly the 2 unvisited
URLs. -/
theorem select_batch_spec (pool : List String) (visited : Finset String)
    (b : Nat) :
    (select_batch pool visited b).length ≤ b ∧
    (∀ u ∈ select_batch pool visited b, u ∈ pool ∧ u ∉ visited) ∧
    select_batch ["u1", "u2", "u3", "u4", "u5", "u6", "u7"]
      {"u1", "u2", "u3", "u4", "u5"} 5 = ["u6", "u7"] := by
  refine ⟨?_, ?_, by decide⟩
  · rw [select_batch]
    exact List.length_take_le b _
  · intro u hu
    rw [select_batch] at hu
    have hu2 := List.mem_of_mem_take hu
    have hm := List.mem_filter.mp hu2
    exact ⟨hm.1, by simpa using hm.2⟩

/-- Witness for C8 at a concrete pool, visited set and batch size. -/
theorem select_batch_spec_witness :
    (select_batch ["a", "b"] {"a"} 1).length ≤ 1 :=
  (select_batch_spec ["a", "b"] {"a"} 1).1

end WebScraper
